import Mathlib

/-!
Verification of the kvstore append-only key-value store (kvstore.py).

The store keeps an in-memory dict `store` and an append-only text log
`data.db`.  `save_set` appends `SET <key> <value>\n` to the log (with
flush+fsync) and then updates the dict; `load_store` replays the log at
startup; `get_value` reads the dict.

The embedding models Python strings as Lean `String`s (working on their
`List Char` data), the log file as the `String` of its bytes (the process
runs on Linux, so text mode writes `\n` verbatim, and text mode reads use
universal newlines: `\n`, `\r`, `\r\n` all terminate a line), and the dict
as a function `String → Option String`.
-/

/-- The characters Python's `str.strip()` and `str.split(None, ...)` treat as
whitespace (`str.isspace`): ASCII whitespace, the C1 controls \x1c-\x1f and
\x85, and the Unicode space separators. -/
def pyWhitespace (c : Char) : Bool :=
  c = ' ' || c = '\t' || c = '\n' || c = '\r' || c = '\x0b' || c = '\x0c' ||
  c = '\x1c' || c = '\x1d' || c = '\x1e' || c = '\x1f' || c = '\x85' || c = '\xa0' ||
  c = '\u1680' || ('\u2000' ≤ c && c ≤ '\u200a') || c = '\u2028' || c = '\u2029' ||
  c = '\u202f' || c = '\u205f' || c = '\u3000'

/-- Remove leading and trailing Python whitespace from a character list. -/
def stripChars (l : List Char) : List Char :=
  ((l.dropWhile pyWhitespace).reverse.dropWhile pyWhitespace).reverse

/-- Python `s.strip()`. -/
def pyStrip (s : String) : String :=
  String.mk (stripChars s.data)

/-- Split file content into lines the way Python text-mode file iteration
does: universal newlines, so `\n`, `\r\n` and `\r` all end a line.  The
trailing element corresponds to the (possibly empty) text after the last
terminator; Python yields no line for it when it is empty, but since
`load_store` strips and skips blank lines the two behaviours agree. -/
def splitLinesChars : List Char → List (List Char)
  | [] => [[]]
  | '\n' :: cs => [] :: splitLinesChars cs
  | '\r' :: '\n' :: cs => [] :: splitLinesChars cs
  | '\r' :: cs => [] :: splitLinesChars cs
  | c :: cs =>
    match splitLinesChars cs with
    | [] => [[c]]
    | l :: ls => (c :: l) :: ls

/-- The raw lines of the log file, as Python's `for line in f` yields them
(modulo the terminators themselves, which `line.strip()` discards anyway). -/
def fileLines (content : String) : List String :=
  (splitLinesChars content.data).map String.mk

def dropWs (l : List Char) : List Char :=
  l.dropWhile pyWhitespace

def takeTok (l : List Char) : List Char :=
  l.takeWhile (fun c => !pyWhitespace c)

def dropTok (l : List Char) : List Char :=
  l.dropWhile (fun c => !pyWhitespace c)

/-- Python `s.split(None, 2)` on a character list: split on runs of
whitespace, at most twice; the third piece is the rest of the string
verbatim (with the separating whitespace run consumed). -/
def splitNone2Chars (l : List Char) : List (List Char) :=
  let l0 := dropWs l
  if l0 = [] then []
  else
    let t1 := takeTok l0
    let r1 := dropWs (dropTok l0)
    if r1 = [] then [t1]
    else
      let t2 := takeTok r1
      let r2 := dropWs (dropTok r1)
      if r2 = [] then [t1, t2]
      else [t1, t2, r2]

/-- Python `s.split(None, 2)`. -/
def pySplitNone2 (s : String) : List String :=
  (splitNone2Chars s.data).map String.mk

/-- Boolean test that `p` occurs at the start of `l` (Python `startswith`). -/
def startsWithChars : List Char → List Char → Bool
  | [], _ => true
  | _ :: _, [] => false
  | p :: ps, c :: cs => p = c && startsWithChars ps cs

/-- Python `s.startswith(p)`. -/
def pyStartsWith (s p : String) : Bool :=
  startsWithChars p.data s.data

-- ── The store model ──────────────────────────────────────────────

def CMD_SET : String := "SET"

/-- The in-memory dict `store`, as the lookup function `dict.get` induces:
keys map to their current value, absent keys to `none`. -/
def Index : Type :=
  String → Option String

/-- A fresh `store = {}`. -/
def emptyIndex : Index :=
  fun _ => none

/-- `store[key] = value`: unconditional overwrite/insert. -/
def updateIdx (idx : Index) (key value : String) : Index :=
  fun k => if k = key then some value else idx k

/-- kvstore.py `get_value` (lines 59-66): `store.get(key)`. -/
def get_value (idx : Index) (key : String) : Option String :=
  idx key

/-- The body of the replay loop in `load_store` (kvstore.py lines 30-36):
strip the raw line; if it starts with `"SET "`, split it into at most three
whitespace-delimited fields and, when exactly three are present, return the
key and value; otherwise the line is skipped. -/
def decodeSet (rawLine : String) : Option (String × String) :=
  let line := pyStrip rawLine
  if pyStartsWith line (CMD_SET ++ " ") then
    match pySplitNone2 line with
    | [_, key, value] => some (key, value)
    | _ => none
  else none

/-- Apply one raw log line to the store, as one iteration of `load_store`'s
loop does. -/
def applyLine (idx : Index) (rawLine : String) : Index :=
  match decodeSet rawLine with
  | some kv => updateIdx idx kv.1 kv.2
  | none => idx

/-- kvstore.py `load_store` (lines 19-38) with the read succeeding: replay
every line of the data file, in file order, into the given store.  The
store is NOT cleared first (the function mutates the module-level `store`
in place).  A missing data file makes `load_store` return immediately,
which coincides with replaying empty content. -/
def load_store (content : String) (idx : Index) : Index :=
  (fileLines content).foldl applyLine idx

/-- kvstore.py `load_store` when the file read raises `IOError`/`OSError`
after `linesRead` lines were yielded: the `except` branch prints to stderr
and returns normally, keeping whatever was replayed so far. -/
def load_store_ioFail (linesRead : Nat) (content : String) (idx : Index) : Index :=
  ((fileLines content).take linesRead).foldl applyLine idx

/-- The state a run of the program manipulates: the bytes of `data.db` and
the in-memory `store`. -/
structure DBState where
  file : String
  store : Index

/-- Outcome of the durable append inside `save_set`: either every byte of
the line reaches the file, or `open`/`write`/`flush`/`fsync` raises, in
which case an unspecified prefix of bytes (`partialWrite`) may have reached
the file. -/
inductive AppendOutcome where
  | ok : AppendOutcome
  | ioError (partialWrite : String) : AppendOutcome

/-- The log line `save_set` writes: `f"{CMD_SET} {key} {value}\n"`. -/
def encodeLine (key value : String) : String :=
  CMD_SET ++ " " ++ key ++ " " ++ value ++ "\n"

/-- kvstore.py `save_set` (lines 41-56): append the line durably, then
update the in-memory store.  If the append raises, the `except` branch
prints to stderr and the store is left untouched (line 54 sits after the
write inside the `try`); the function returns normally in both cases. -/
def save_set (out : AppendOutcome) (key value : String) (s : DBState) : DBState :=
  match out with
  | .ok => { file := s.file ++ encodeLine key value, store := updateIdx s.store key value }
  | .ioError partialWrite => { file := s.file ++ partialWrite, store := s.store }

-- ── Operation sequences: puts and process restarts ───────────────

/-- An event in the life of the database: a successful `put`, or a process
restart (the new process replays the log into a fresh empty store). -/
inductive Op where
  | put (key value : String) : Op
  | restart : Op

/-- First process start with no pre-existing data file. -/
def initState : DBState :=
  { file := "", store := emptyIndex }

def stepOp (s : DBState) : Op → DBState
  | .put k v => save_set .ok k v s
  | .restart => { file := s.file, store := load_store s.file emptyIndex }

def runOps (ops : List Op) : DBState :=
  ops.foldl stepOp initState

def toPut (p : String × String) : Op :=
  Op.put p.1 p.2

/-- Run a sequence of successful `put`s (no restarts) from the initial
state. -/
def runPuts (ps : List (String × String)) : DBState :=
  runOps (ps.map toPut)

-- ── Well-formed keys and values ──────────────────────────────────

/-- A key the log format can represent faithfully: nonempty, no Python
whitespace. -/
def goodKey (k : String) : Prop :=
  k.data ≠ [] ∧ ∀ c ∈ k.data, pyWhitespace c = false

/-- A value the log format can represent faithfully: nonempty, free of line
terminators, and with non-whitespace first and last characters (leading
whitespace is absorbed by the field separator on replay, trailing
whitespace by `strip`). -/
def goodValue (v : String) : Prop :=
  v.data ≠ [] ∧ (∀ c ∈ v.data, c ≠ '\n' ∧ c ≠ '\r') ∧
  (∀ c, v.data.head? = some c → pyWhitespace c = false) ∧
  (∀ c, v.data.getLast? = some c → pyWhitespace c = false)

def goodPair (p : String × String) : Prop :=
  goodKey p.1 ∧ goodValue p.2

def goodOp : Op → Prop
  | .put k v => goodPair (k, v)
  | .restart => True

instance decGoodKey (k : String) : Decidable (goodKey k) :=
  inferInstanceAs (Decidable (_ ∧ _))

instance decGoodValue (v : String) : Decidable (goodValue v) :=
  inferInstanceAs (Decidable (_ ∧ _))

instance decGoodPair (p : String × String) : Decidable (goodPair p) :=
  inferInstanceAs (Decidable (_ ∧ _))

instance decGoodOp : (op : Op) → Decidable (goodOp op)
  | .put _ _ => inferInstanceAs (Decidable (_ ∧ _))
  | .restart => inferInstanceAs (Decidable True)

-- ── Bookkeeping over operation sequences ─────────────────────────

def opPut : Op → Option (String × String)
  | .put k v => some (k, v)
  | .restart => none

/-- The (key, value) pairs of the puts in `ops`, in order. -/
def putsAll (ops : List Op) : List (String × String) :=
  ops.filterMap opPut

/-- The values a list of pairs assigns to key `k`, in order. -/
def valuesFor (k : String) (ps : List (String × String)) : List String :=
  ps.filterMap (fun p => if p.1 = k then some p.2 else none)

/-- The values written to key `k` by the puts of `ops`, in order. -/
def putsTo (k : String) (ops : List Op) : List String :=
  valuesFor k (putsAll ops)

/-- The log content a sequence of successful puts produces. -/
def encodeLog : List (String × String) → String
  | [] => ""
  | p :: ps => encodeLine p.1 p.2 ++ encodeLog ps

/-- Fold a list of (key, value) pairs into the store. -/
def applyPuts (idx : Index) (ps : List (String × String)) : Index :=
  ps.foldl (fun i p => updateIdx i p.1 p.2) idx

-- ── General lemmas about the Python string primitives ────────────

lemma dropWhile_eq_self_of_head (p : Char → Bool) (l : List Char)
    (h : ∀ c, l.head? = some c → p c = false) : l.dropWhile p = l := by
  cases l with
  | nil => rfl
  | cons a l => simp [List.dropWhile_cons, h a rfl]

lemma stripChars_eq_self (l : List Char)
    (h1 : ∀ c, l.head? = some c → pyWhitespace c = false)
    (h2 : ∀ c, l.getLast? = some c → pyWhitespace c = false) :
    stripChars l = l := by
  unfold stripChars
  rw [dropWhile_eq_self_of_head _ _ h1,
    dropWhile_eq_self_of_head _ _ (by simpa [List.head?_reverse] using h2),
    List.reverse_reverse]

lemma takeWhile_all_append (p : Char → Bool) (xs : List Char) (y : Char) (ys : List Char)
    (hxs : ∀ c ∈ xs, p c = true) (hy : p y = false) :
    (xs ++ y :: ys).takeWhile p = xs ∧ (xs ++ y :: ys).dropWhile p = y :: ys := by
  induction xs with
  | nil => simp [List.takeWhile_cons, List.dropWhile_cons, hy]
  | cons a xs ih =>
    have ha : p a = true := hxs a (by simp)
    have := ih (fun c hc => hxs c (by simp [hc]))
    simp [List.takeWhile_cons, List.dropWhile_cons, ha, this.1, this.2]

lemma dropWs_eq_self_of_head (l : List Char)
    (h : ∀ c, l.head? = some c → pyWhitespace c = false) : dropWs l = l :=
  dropWhile_eq_self_of_head _ _ h

/-- Character-level shape of the line `save_set` writes for key `k` and
value `v` (without the trailing newline). -/
def setLineData (kd vd : List Char) : List Char :=
  'S' :: 'E' :: 'T' :: ' ' :: (kd ++ ' ' :: vd)

lemma pyWhitespace_not_newline {c : Char} (h : pyWhitespace c = false) :
    c ≠ '\n' ∧ c ≠ '\r' := by
  constructor <;> rintro rfl <;> simp [pyWhitespace] at h

lemma dropWs_cons_ws (c : Char) (l : List Char) (h : pyWhitespace c = true) :
    dropWs (c :: l) = dropWs l := by
  simp [dropWs, List.dropWhile_cons, h]

lemma dropWs_cons_nws (c : Char) (l : List Char) (h : pyWhitespace c = false) :
    dropWs (c :: l) = c :: l := by
  simp [dropWs, List.dropWhile_cons, h]

lemma splitNone2Chars_setLine (k0 v0 : Char) (kd vd : List Char)
    (hk : ∀ c ∈ k0 :: kd, pyWhitespace c = false)
    (hv0 : pyWhitespace v0 = false) :
    splitNone2Chars (setLineData (k0 :: kd) (v0 :: vd))
      = [['S', 'E', 'T'], k0 :: kd, v0 :: vd] := by
  have hk0 : pyWhitespace k0 = false := hk k0 (by simp)
  have step1 := takeWhile_all_append (fun c => !pyWhitespace c) ['S', 'E', 'T'] ' '
      ((k0 :: kd) ++ ' ' :: (v0 :: vd))
      (by intro c hc; simp at hc; rcases hc with rfl | rfl | rfl <;> rfl) (by rfl)
  have step2 := takeWhile_all_append (fun c => !pyWhitespace c) (k0 :: kd) ' ' (v0 :: vd)
      (by intro c hc; have h := hk c hc; simp [h]) (by rfl)
  have e0 : dropWs (setLineData (k0 :: kd) (v0 :: vd)) = setLineData (k0 :: kd) (v0 :: vd) := by
    unfold setLineData
    exact dropWs_cons_nws _ _ (by rfl)
  have eA : takeTok (setLineData (k0 :: kd) (v0 :: vd)) = ['S', 'E', 'T'] := by
    unfold setLineData takeTok
    simpa using step1.1
  have eB : dropTok (setLineData (k0 :: kd) (v0 :: vd))
      = ' ' :: ((k0 :: kd) ++ ' ' :: (v0 :: vd)) := by
    unfold setLineData dropTok
    simpa using step1.2
  have eC : dropWs (' ' :: ((k0 :: kd) ++ ' ' :: (v0 :: vd)))
      = (k0 :: kd) ++ ' ' :: (v0 :: vd) := by
    rw [dropWs_cons_ws _ _ (by rfl), List.cons_append, dropWs_cons_nws _ _ hk0]
  have eD : takeTok ((k0 :: kd) ++ ' ' :: (v0 :: vd)) = k0 :: kd := by
    unfold takeTok
    simpa using step2.1
  have eE : dropTok ((k0 :: kd) ++ ' ' :: (v0 :: vd)) = ' ' :: (v0 :: vd) := by
    unfold dropTok
    simpa using step2.2
  have eF : dropWs (' ' :: (v0 :: vd)) = v0 :: vd := by
    rw [dropWs_cons_ws _ _ (by rfl), dropWs_cons_nws _ _ hv0]
  simp only [splitNone2Chars, e0, eA, eB, eC, eD, eE, eF]
  simp [setLineData]

lemma decodeSet_setLine (k v : String) (hk : goodKey k) (hv : goodValue v) :
    decodeSet (String.mk (setLineData k.data v.data)) = some (k, v) := by
  obtain ⟨hknil, hkws⟩ := hk
  obtain ⟨hvnil, _, hvh, hvl⟩ := hv
  have hstrip : stripChars (setLineData k.data v.data) = setLineData k.data v.data := by
    apply stripChars_eq_self
    · intro c hc
      simp [setLineData] at hc
      rw [← hc]
      rfl
    · intro c hc
      apply hvl
      have hne : ' ' :: v.data ≠ [] := by simp
      rw [show setLineData k.data v.data
          = ('S' :: 'E' :: 'T' :: ' ' :: k.data) ++ ' ' :: v.data by simp [setLineData],
        List.getLast?_append_of_ne_nil _ hne] at hc
      cases hd : v.data with
      | nil => exact absurd hd hvnil
      | cons a l => rwa [hd, List.getLast?_cons_cons] at hc
  obtain ⟨k0, kd', hkdef⟩ : ∃ a l, k.data = a :: l := by
    cases hkd : k.data with
    | nil => exact absurd hkd hknil
    | cons a l => exact ⟨a, l, rfl⟩
  obtain ⟨v0, vd', hvdef⟩ : ∃ a l, v.data = a :: l := by
    cases hvd : v.data with
    | nil => exact absurd hvd hvnil
    | cons a l => exact ⟨a, l, rfl⟩
  have hv0 : pyWhitespace v0 = false := hvh v0 (by rw [hvdef]; rfl)
  have hsplit := splitNone2Chars_setLine k0 v0 kd' vd' (hkdef ▸ hkws) hv0
  rw [← hkdef, ← hvdef] at hsplit
  unfold decodeSet pyStrip pySplitNone2 pyStartsWith
  simp only [hstrip, hsplit]
  rw [show startsWithChars (CMD_SET ++ " ").data (setLineData k.data v.data) = true by
    simp [setLineData, CMD_SET, startsWithChars]]
  simp

lemma applyLine_setLine (idx : Index) (k v : String) (hk : goodKey k) (hv : goodValue v) :
    applyLine idx (String.mk (setLineData k.data v.data)) = updateIdx idx k v := by
  unfold applyLine
  rw [decodeSet_setLine k v hk hv]

-- ── Lines of an encoded log ──────────────────────────────────────

lemma splitLinesChars_cons_other (c : Char) (cs : List Char)
    (h1 : c ≠ '\n') (h2 : c ≠ '\r') :
    splitLinesChars (c :: cs) = match splitLinesChars cs with
      | [] => [[c]]
      | l :: ls => (c :: l) :: ls := by
  rw [splitLinesChars.eq_def]
  split
  · simp_all
  · simp_all
  · simp_all
  · simp_all
  · simp_all

lemma splitLinesChars_line_append (l rest : List Char)
    (hl : ∀ c ∈ l, c ≠ '\n' ∧ c ≠ '\r') :
    splitLinesChars (l ++ '\n' :: rest) = l :: splitLinesChars rest := by
  induction l with
  | nil => simp [splitLinesChars]
  | cons c l ih =>
    have hc := hl c (by simp)
    have ihl := ih (fun d hd => hl d (by simp [hd]))
    rw [List.cons_append, splitLinesChars_cons_other c _ hc.1 hc.2, ihl]

lemma encodeLine_data (k v : String) :
    (encodeLine k v).data = setLineData k.data v.data ++ ['\n'] := by
  simp [encodeLine, CMD_SET, setLineData]

lemma fileLines_encodeLine_append (k v : String) (hk : goodKey k) (hv : goodValue v)
    (rest : String) :
    fileLines (encodeLine k v ++ rest)
      = String.mk (setLineData k.data v.data) :: fileLines rest := by
  have hdata : (encodeLine k v ++ rest).data
      = setLineData k.data v.data ++ '\n' :: rest.data := by
    show (encodeLine k v).data ++ rest.data = _
    rw [encodeLine_data]
    simp
  have hchars : ∀ c ∈ setLineData k.data v.data, c ≠ '\n' ∧ c ≠ '\r' := by
    intro c hc
    simp [setLineData] at hc
    rcases hc with rfl | rfl | rfl | rfl | h | rfl | h
    · exact ⟨by decide, by decide⟩
    · exact ⟨by decide, by decide⟩
    · exact ⟨by decide, by decide⟩
    · exact ⟨by decide, by decide⟩
    · exact pyWhitespace_not_newline (hk.2 c h)
    · exact ⟨by decide, by decide⟩
    · exact hv.2.1 c h
  unfold fileLines
  rw [hdata, splitLinesChars_line_append _ _ hchars]
  simp

-- ── Replaying an encoded log ─────────────────────────────────────

lemma applyLine_mk_nil (idx : Index) : applyLine idx (String.mk []) = idx := rfl

lemma load_store_encodeLog (ps : List (String × String)) (h : ∀ p ∈ ps, goodPair p)
    (idx : Index) : load_store (encodeLog ps) idx = applyPuts idx ps := by
  induction ps generalizing idx with
  | nil => rfl
  | cons p ps ih =>
    have hp : goodPair p := h p (by simp)
    have hps : ∀ q ∈ ps, goodPair q := fun q hq => h q (by simp [hq])
    unfold load_store
    rw [show encodeLog (p :: ps) = encodeLine p.1 p.2 ++ encodeLog ps from rfl,
      fileLines_encodeLine_append p.1 p.2 hp.1 hp.2, List.foldl_cons,
      applyLine_setLine idx p.1 p.2 hp.1 hp.2]
    have hrec := ih hps (updateIdx idx p.1 p.2)
    unfold load_store at hrec
    rw [hrec]
    rfl

lemma valuesFor_cons_eq (p : String × String) (ps : List (String × String)) (k : String)
    (h : p.1 = k) : valuesFor k (p :: ps) = p.2 :: valuesFor k ps := by
  simp [valuesFor, List.filterMap_cons, h]

lemma valuesFor_cons_ne (p : String × String) (ps : List (String × String)) (k : String)
    (h : p.1 ≠ k) : valuesFor k (p :: ps) = valuesFor k ps := by
  simp [valuesFor, List.filterMap_cons, h]

lemma applyPuts_lookup (ps : List (String × String)) (idx : Index) (k : String) :
    applyPuts idx ps k = match (valuesFor k ps).getLast? with
      | some v => some v
      | none => idx k := by
  induction ps generalizing idx with
  | nil => rfl
  | cons p ps ih =>
    rw [show applyPuts idx (p :: ps) = applyPuts (updateIdx idx p.1 p.2) ps from rfl,
      ih (updateIdx idx p.1 p.2)]
    by_cases hpk : p.1 = k
    · rw [valuesFor_cons_eq p ps k hpk]
      cases hl : valuesFor k ps with
      | nil =>
        simp [List.getLast?_singleton, updateIdx, hpk]
      | cons b bs =>
        rw [List.getLast?_cons_cons]
        cases hbl : (b :: bs).getLast? with
        | some v => rfl
        | none => simp at hbl
    · rw [valuesFor_cons_ne p ps k hpk]
      cases hl : (valuesFor k ps).getLast? with
      | some v => rfl
      | none =>
        simp only [updateIdx]
        rw [if_neg (fun h : k = p.1 => hpk h.symm)]

lemma encodeLog_append (ps qs : List (String × String)) :
    encodeLog (ps ++ qs) = encodeLog ps ++ encodeLog qs := by
  induction ps with
  | nil => rfl
  | cons p ps ih =>
    show encodeLine p.1 p.2 ++ encodeLog (ps ++ qs)
      = (encodeLine p.1 p.2 ++ encodeLog ps) ++ encodeLog qs
    rw [ih, String.append_assoc]

lemma applyPuts_append_single (ps : List (String × String)) (k v : String) (idx : Index) :
    applyPuts idx (ps ++ [(k, v)]) = updateIdx (applyPuts idx ps) k v := by
  simp [applyPuts, List.foldl_append]

/-- Core invariant: starting from a state whose file is an encoded log of
well-formed puts and whose store is the fold of those puts, running any
sequence of well-formed operations (puts and restarts) keeps the file an
encoded log and the store the fold of all puts so far. -/
lemma runOps_invariant : ∀ (ops : List Op) (s : DBState) (ps : List (String × String)),
    (∀ op ∈ ops, goodOp op) → (∀ p ∈ ps, goodPair p) →
    s.file = encodeLog ps → s.store = applyPuts emptyIndex ps →
    (ops.foldl stepOp s).file = encodeLog (ps ++ putsAll ops) ∧
    (ops.foldl stepOp s).store = applyPuts emptyIndex (ps ++ putsAll ops) := by
  intro ops
  induction ops with
  | nil =>
    intro s ps _ _ hf hs
    simp [putsAll, hf, hs]
  | cons op ops ih =>
    intro s ps hops hps hf hs
    have hop : goodOp op := hops op (by simp)
    have hops2 : ∀ o ∈ ops, goodOp o := fun o ho => hops o (by simp [ho])
    cases op with
    | put k v =>
      have hgood : goodPair (k, v) := hop
      have hps2 : ∀ p ∈ ps ++ [(k, v)], goodPair p := by
        intro p hp
        rcases List.mem_append.1 hp with h | h
        · exact hps p h
        · simp at h
          rw [h]
          exact hgood
      have hstep := ih (stepOp s (Op.put k v)) (ps ++ [(k, v)]) hops2 hps2
        (by
          show s.file ++ encodeLine k v = _
          rw [hf, encodeLog_append]
          show _ = encodeLog ps ++ (encodeLine k v ++ "")
          rw [String.append_empty])
        (by
          show updateIdx s.store k v = _
          rw [hs, applyPuts_append_single])
      rw [List.foldl_cons]
      constructor
      · rw [hstep.1]
        simp [putsAll, List.filterMap_cons, opPut]
      · rw [hstep.2]
        simp [putsAll, List.filterMap_cons, opPut]
    | restart =>
      have hload : load_store s.file emptyIndex = s.store := by
        rw [hf, load_store_encodeLog ps hps, ← hs]
      have hstep := ih (stepOp s Op.restart) ps hops2 hps
        (by show s.file = _; exact hf)
        (by show load_store s.file emptyIndex = _; rw [hload, hs])
      rw [List.foldl_cons]
      constructor
      · rw [hstep.1]
        simp [putsAll, List.filterMap_cons, opPut]
      · rw [hstep.2]
        simp [putsAll, List.filterMap_cons, opPut]

lemma putsAll_map_toPut (ps : List (String × String)) : putsAll (ps.map toPut) = ps := by
  induction ps with
  | nil => rfl
  | cons p ps ih =>
    simp only [putsAll, List.map_cons, List.filterMap_cons, toPut, opPut] at ih ⊢
    rw [ih]

-- ── Claim theorems ───────────────────────────────────────────────

/-- C1: if the durable append raises an I/O error during a put, the
operation fails without touching the in-memory store: for every key, a
subsequent get returns exactly what it would have returned before the
failed put. -/
theorem put_ioError_leaves_store_unchanged (junk key value k : String) (s : DBState) :
    get_value (save_set (.ioError junk) key value s).store k = get_value s.store k := rfl

/-- C2 counterexample: the claim quantifies over every key; the key "a b"
(containing whitespace) is written by a successful put, but after a restart
the replayed line `SET a b v` parses as key "a", so get("a b") returns
absent rather than the last-written value "v". -/
theorem lastWriteWins_counterexample :
    get_value (runOps [Op.put "a b" "v", Op.restart]).store "a b" = none ∧
    get_value (runOps [Op.put "a b" "v", Op.restart]).store "a b" ≠ some "v" := by
  exact ⟨by decide, by decide⟩

/-- C2 amended: last write wins, including across restarts, provided every
put in the sequence uses a well-formed key (nonempty, no whitespace) and a
well-formed value (nonempty, no line terminator, no leading or trailing
whitespace): if the values successively written to k are v1..vn, then after
the whole sequence get(k) returns vn. -/
theorem lastWriteWins (ops : List Op) (h : ∀ op ∈ ops, goodOp op)
    (k vn : String) (hlast : (putsTo k ops).getLast? = some vn) :
    get_value (runOps ops).store k = some vn := by
  have hinv := runOps_invariant ops initState [] h (by simp) rfl rfl
  show (ops.foldl stepOp initState).store k = some vn
  rw [hinv.2, List.nil_append]
  rw [applyPuts_lookup]
  rw [show valuesFor k (putsAll ops) = putsTo k ops from rfl, hlast]

theorem lastWriteWins_witness :
    get_value (runOps [Op.put "x" "1", Op.restart, Op.put "x" "2", Op.restart]).store "x"
      = some "2" :=
  lastWriteWins [Op.put "x" "1", Op.restart, Op.put "x" "2", Op.restart]
    (by decide) "x" "2" (by decide)

/-- C3 counterexample: after the single successful put of value "v" under
the whitespace key "a b", the in-memory store maps "a b" to "v" but
replaying the resulting log from an empty store does not (the logged line
parses as key "a"), so the store is not the replay of the log. -/
theorem indexIsReplay_counterexample :
    get_value (runPuts [("a b", "v")]).store "a b" = some "v" ∧
    get_value (load_store (runPuts [("a b", "v")]).file emptyIndex) "a b" = none ∧
    (runPuts [("a b", "v")]).store ≠ load_store (runPuts [("a b", "v")]).file emptyIndex := by
  have h1 : get_value (runPuts [("a b", "v")]).store "a b" = some "v" := by decide
  have h2 : get_value (load_store (runPuts [("a b", "v")]).file emptyIndex) "a b" = none := by
    decide
  refine ⟨h1, h2, fun heq => ?_⟩
  rw [show get_value (runPuts [("a b", "v")]).store "a b"
      = get_value (load_store (runPuts [("a b", "v")]).file emptyIndex) "a b" from
    congrArg (fun f => f "a b") heq] at h1
  rw [h1] at h2
  cases h2

/-- C3 amended: after any sequence of successful puts whose keys are
nonempty and whitespace-free and whose values are nonempty, free of line
terminators, and have no leading or trailing whitespace, the in-memory
store equals the store obtained by replaying the resulting log file from an
empty store in file order. -/
theorem indexIsReplay (ps : List (String × String)) (h : ∀ p ∈ ps, goodPair p) :
    (runPuts ps).store = load_store (runPuts ps).file emptyIndex := by
  have hops : ∀ op ∈ ps.map toPut, goodOp op := by
    intro op hop
    rcases List.mem_map.1 hop with ⟨p, hp, hpe⟩
    rw [← hpe]
    exact h p hp
  have hinv := runOps_invariant (ps.map toPut) initState [] hops (by simp) rfl rfl
  show ((ps.map toPut).foldl stepOp initState).store
    = load_store ((ps.map toPut).foldl stepOp initState).file emptyIndex
  rw [hinv.1, hinv.2, List.nil_append, putsAll_map_toPut]
  exact (load_store_encodeLog ps h emptyIndex).symm

theorem indexIsReplay_witness :
    (runPuts [("a", "1"), ("b", "2"), ("a", "3")]).store
      = load_store (runPuts [("a", "1"), ("b", "2"), ("a", "3")]).file emptyIndex :=
  indexIsReplay [("a", "1"), ("b", "2"), ("a", "3")] (by decide)

/-- C4: there is no InvalidKey check anywhere in the code: a put with the
whitespace-containing key "a b" succeeds, appends `SET a b v\n` to the log
and updates the store, and on replay the line parses as key "a" with value
"b v" — recovery is silently corrupted instead of the put failing before
any log write. -/
theorem whitespaceKey_put_succeeds :
    (save_set .ok "a b" "v" initState).file = "SET a b v\n" ∧
    get_value (save_set .ok "a b" "v" initState).store "a b" = some "v" ∧
    get_value (load_store (save_set .ok "a b" "v" initState).file emptyIndex) "a b" = none ∧
    get_value (load_store (save_set .ok "a b" "v" initState).file emptyIndex) "a"
      = some "b v" := by
  exact ⟨by decide, by decide, by decide, by decide⟩

/-- C5: I/O errors are swallowed, not surfaced: when the read of the log
raises after one line, `load_store` returns normally with a partially
rebuilt store (here "a" loaded, "b" missing) instead of aborting; when the
durable append raises, `save_set` returns normally with nothing recorded —
no `WriteFailure`/`ReadFailure` reaches any caller (both except branches
only print to stderr). -/
theorem ioErrors_swallowed :
    get_value (load_store_ioFail 1 "SET a 1\nSET b 2\n" emptyIndex) "a" = some "1" ∧
    get_value (load_store_ioFail 1 "SET a 1\nSET b 2\n" emptyIndex) "b" = none ∧
    get_value (save_set (.ioError "") "k" "v" initState).store "k" = none := by
  exact ⟨by decide, by decide, by decide⟩

/-- C6: round-trip within a process: for a key with no embedded whitespace
and a value with no line terminator (interior spaces allowed), a successful
put followed immediately by get returns exactly the value. -/
theorem put_then_get_roundTrip (key value : String) (s : DBState)
    (hk : ∀ c ∈ key.data, pyWhitespace c = false)
    (hv : ∀ c ∈ value.data, c ≠ '\n' ∧ c ≠ '\r') :
    get_value (save_set .ok key value s).store key = some value := by
  show updateIdx s.store key value key = some value
  simp [updateIdx]

theorem put_then_get_roundTrip_witness :
    get_value (save_set .ok "k" "a  b" initState).store "k" = some "a  b" :=
  put_then_get_roundTrip "k" "a  b" initState (by decide) (by decide)

/-- The three-line log file of claim C7: one well-formed `SET a 1` line,
one blank line, one `GARBAGE` line. -/
def malformedLog : String := "SET a 1\n\nGARBAGE\n"

/-- C7: malformed lines are tolerated: replaying `malformedLog` completes
(replay is total) and yields a store where get("a") returns "1" and every
other key is absent. -/
theorem malformed_lines_tolerated :
    get_value (load_store malformedLog emptyIndex) "a" = some "1" ∧
    ∀ k : String, k ≠ "a" → get_value (load_store malformedLog emptyIndex) k = none := by
  have h : load_store malformedLog emptyIndex = updateIdx emptyIndex "a" "1" := rfl
  constructor
  · rw [h]
    simp [get_value, updateIdx]
  · intro k hk
    rw [h]
    show (if k = "a" then some "1" else emptyIndex k) = none
    rw [if_neg hk]
    rfl

theorem malformed_lines_tolerated_witness :
    get_value (load_store malformedLog emptyIndex) "a" = some "1" ∧
    get_value (load_store malformedLog emptyIndex) "b" = none :=
  ⟨malformed_lines_tolerated.1, malformed_lines_tolerated.2 "b" (by decide)⟩

/-- C8: recovery is deterministic and idempotent: any two runs of the
replay over the same log file, each starting from an empty store, yield
identical store contents. -/
theorem recovery_deterministic (content : String) (i1 i2 : Index)
    (h1 : i1 = load_store content emptyIndex) (h2 : i2 = load_store content emptyIndex) :
    ∀ k, get_value i1 k = get_value i2 k := by
  subst h1
  subst h2
  intro k
  rfl

theorem recovery_deterministic_witness :
    get_value (load_store "SET a 1\n" emptyIndex) "a"
      = get_value (load_store "SET a 1\n" emptyIndex) "a" :=
  recovery_deterministic "SET a 1\n" (load_store "SET a 1\n" emptyIndex)
    (load_store "SET a 1\n" emptyIndex) rfl rfl "a"

lemma foldl_puts_other_keys (k : String) : ∀ (ps : List (String × String)) (s : DBState),
    (∀ p ∈ ps, p.1 ≠ k) → ((ps.map toPut).foldl stepOp s).store k = s.store k := by
  intro ps
  induction ps with
  | nil =>
    intro s _
    rfl
  | cons p ps ih =>
    intro s hps
    have hp : p.1 ≠ k := hps p (by simp)
    have h2 : ∀ q ∈ ps, q.1 ≠ k := fun q hq => hps q (by simp [hq])
    rw [List.map_cons, List.foldl_cons, ih _ h2]
    show updateIdx s.store p.1 p.2 k = s.store k
    simp only [updateIdx]
    rw [if_neg (fun h : k = p.1 => hp h.symm)]

/-- C9: get distinguishes absent from the stored sentinel text: after any
sequence of successful puts none of which targets k, get(k) returns the
absent result `none` (never a placeholder string), while a key whose stored
value is the string "NULL" yields `some "NULL"` — a present value. -/
theorem absent_vs_NULL (k : String) (ps : List (String × String))
    (h : ∀ p ∈ ps, p.1 ≠ k) :
    get_value (runPuts ps).store k = none ∧
    ∀ s : DBState, get_value (save_set .ok k "NULL" s).store k = some "NULL" := by
  constructor
  · show ((ps.map toPut).foldl stepOp initState).store k = none
    rw [foldl_puts_other_keys k ps initState h]
    rfl
  · intro s
    show updateIdx s.store k "NULL" k = some "NULL"
    simp [updateIdx]

theorem absent_vs_NULL_witness :
    get_value (runPuts [("a", "1")]).store "z" = none ∧
    get_value (save_set .ok "z" "NULL" initState).store "z" = some "NULL" := by
  have h := absent_vs_NULL "z" [("a", "1")] (by decide)
  exact ⟨h.1, h.2 initState⟩

lemma foldl_applyLine_no_record (k : String) : ∀ (ls : List String) (idx : Index),
    (∀ l ∈ ls, (decodeSet l).map Prod.fst ≠ some k) →
    (ls.foldl applyLine idx) k = idx k := by
  intro ls
  induction ls with
  | nil =>
    intro idx _
    rfl
  | cons l ls ih =>
    intro idx h
    have hl := h l (by simp)
    have h2 : ∀ m ∈ ls, (decodeSet m).map Prod.fst ≠ some k :=
      fun m hm => h m (by simp [hm])
    rw [List.foldl_cons, ih _ h2]
    unfold applyLine
    cases hd : decodeSet l with
    | none => rfl
    | some kv =>
      rw [hd] at hl
      simp at hl
      have hne : kv.1 ≠ k := fun he => hl (by rw [he])
      show updateIdx idx kv.1 kv.2 k = idx k
      simp only [updateIdx]
      rw [if_neg (fun he : k = kv.1 => hne he.symm)]

/-- C10: replay merges rather than rebuilds: `load_store` never clears the
store, so replaying a log into a non-empty store leaves every key with no
SET record in the log at its prior in-memory value; only keys with SET
records are overwritten. -/
theorem replay_preserves_unlogged_keys (content : String) (idx : Index) (k : String)
    (h : ∀ line ∈ fileLines content, (decodeSet line).map Prod.fst ≠ some k) :
    get_value (load_store content idx) k = get_value idx k :=
  foldl_applyLine_no_record k (fileLines content) idx h

theorem replay_preserves_unlogged_keys_witness :
    get_value (load_store "SET a 1\n" (updateIdx emptyIndex "b" "9")) "b" = some "9" :=
  (replay_preserves_unlogged_keys "SET a 1\n" (updateIdx emptyIndex "b" "9") "b"
    (by decide)).trans (by decide)
